import Mathlib

set_option maxHeartbeats 1000000
set_option maxRecDepth 100000
set_option linter.unusedVariables false

/-! Shallow embedding of `whycry.py` (class `WhyCry`): a configurable-alphabet
Vigenere-style stream cipher with a reversible padding scheme.  Buffers of
alphabet indices are `List Int` (Python ints); fallible operations return
`Except PyErr`, mirroring the Python exceptions.  Randomness is embedded by
passing the outcomes of the draws as explicit arguments. -/

/-- Python exceptions that the methods of `whycry.py` can raise.
`randNoFuel` models non-termination of the rejection-sampling `while` loop
(the finite proposal stream ran out), which is not an exception in Python but
is the only way that loop can fail to produce a value. -/
inductive PyErr where
  | keyError
  | valueError
  | indexError
  | zeroDivisionError
  | assertionError
  | randNoFuel
deriving DecidableEq

/-- Python `str.index(c)`: index of the first occurrence of `c`;
`none` models the `ValueError` raised when `c` is absent. -/
def strIndex (c : Char) : List Char → Option Nat
  | [] => none
  | a :: as => if a = c then some 0 else (strIndex c as).map (· + 1)

/-- `WhyCry._build_input`: `[self.dictionary.index(char) for char in string]`;
`none` models the `ValueError` on a character outside the dictionary. -/
def buildInput (diz : List Char) : List Char → Option (List Int)
  | [] => some []
  | c :: cs =>
    match strIndex c diz, buildInput diz cs with
    | some i, some t => some ((i : Int) :: t)
    | _, _ => none

/-- Python list indexing `diz[x]`: a negative index counts from the end;
`none` models `IndexError`. -/
def pyGetChar (diz : List Char) (x : Int) : Option Char :=
  let j : Int := if x < 0 then (diz.length : Int) + x else x
  if 0 ≤ j then diz[j.toNat]? else none

/-- `WhyCry._output`: `''.join([self.dictionary[x] for x in self.text])`. -/
def output (diz : List Char) : List Int → Option (List Char)
  | [] => some []
  | x :: t =>
    match pyGetChar diz x, output diz t with
    | some c, some cs => some (c :: cs)
    | _, _ => none

/-- Python `s * r` on a list: `r` concatenated copies of `s`. -/
def pyRepeat (s : List Int) : Nat → List Int
  | 0 => []
  | r + 1 => s ++ pyRepeat s r

/-- `WhyCry._translate`: the additive stream transform.  The key is repeated
`len(t) // len(s) + 1` times and zipped with the buffer; forward mode adds and
wraps once downward, reverse mode subtracts and wraps once upward. -/
def translateOp (d : Nat) (s : List Int) (mode : Bool) (t : List Int) : List Int :=
  let ks := pyRepeat s (t.length / s.length + 1)
  if mode then
    (List.zipWith (· + ·) t ks).map (fun x => if x < (d : Int) then x else x - d)
  else
    (List.zipWith (· - ·) t ks).map (fun x => if x > -1 then x else x + d)

/-- One rejection-sampling draw of `_wide(mode=1)`: consume proposals from
`rs` until one differs from `last` (the buffer's current final element).
Models `c1 = c2 = t[-1]; while c1 == c2: c1 = int(r() * max)`;
`none` means the proposal stream was exhausted. -/
def rejectDraw (last : Int) : List Int → Option (Int × List Int)
  | [] => none
  | c :: rest => if c = last then rejectDraw last rest else some (c, rest)

/-- `n` iterations of `for _ in range(s): ...; t.append(c1)` from
`_wide(mode=1)`: each iteration draws a value differing from the current last
element and appends it. -/
def appendRun : List Int → Nat → List Int → Option (List Int × List Int)
  | t, 0, rs => some (t, rs)
  | t, n + 1, rs =>
    match t.getLast? with
    | none => none
    | some last =>
      match rejectDraw last rs with
      | none => none
      | some (c, rest) => appendRun (t ++ [c]) n rest

/-- `WhyCry._wide(mode=1, lenght)`: duplicate the first and last elements, then
for each of the two parts (`cside`, then `cadd - cside`) append that many
disturbance draws and reverse the buffer.  `cside` is the outcome of
`int(random() * cadd)` and `rs` the stream of proposals `int(random() * max)`;
the `IndexError` is `t[0]` on an empty buffer. -/
def wideF (lenght : Nat) (cside : Nat) (rs : List Int) (t : List Int) :
    Except PyErr (List Int) :=
  match t with
  | [] => .error .indexError
  | t0 :: _ =>
    let t1 := t0 :: (t ++ [t.getLastD 0])
    let cadd := lenght - t1.length
    match appendRun t1 cside rs with
    | none => .error .randNoFuel
    | some (t2, rs2) =>
      match appendRun t2.reverse (cadd - cside) rs2 with
      | none => .error .randNoFuel
      | some (t3, _) => .ok t3.reverse

/-- The scan of `_wide(mode=0)`: find the first adjacent equal pair and return
the suffix starting at the pair's second element (the code's `t = t[x+1:]`). -/
def scanPair : List Int → Option (List Int)
  | [] => none
  | [_] => none
  | a :: b :: l => if a = b then some (b :: l) else scanPair (b :: l)

/-- The index `x` of the first adjacent equal pair `t[x] == t[x+1]`, exactly
as scanned by `for x in range(len(t) - 1)` in `_wide(mode=0)`. -/
def firstAdj : List Int → Option Nat
  | [] => none
  | [_] => none
  | a :: b :: l => if a = b then some 0 else (firstAdj (b :: l)).map (· + 1)

/-- One pass of `_wide(mode=0)`: scan, slice at the pair, reverse; `none`
models the `for ... else` branch (no adjacent equal pair anywhere). -/
def unwidePass (t : List Int) : Option (List Int) :=
  (scanPair t).map List.reverse

/-- `WhyCry._wide(mode=0)`: two passes; a failed pass empties the buffer. -/
def unwide (t : List Int) : List Int :=
  match unwidePass t with
  | none => []
  | some t1 =>
    match unwidePass t1 with
    | none => []
    | some t2 => t2

/-- `int(random() * m)` for an outcome `r ∈ [0,1)` of `random()`: the value
proposed by one disturbance draw, where `m = maxDraw d`. -/
def drawVal (m : Nat) (r : ℚ) : Int := Int.floor (r * m)

/-- `max = len(self.dictionary) - 1` from `_wide(mode=1)`. -/
def maxDraw (d : Nat) : Nat := d - 1

/-- `SPACE = " "` from the source. -/
def SPACE : List Char := [
  '\x20']

/-- `NUM = "0123456789"` from the source. -/
def NUM : List Char := [
  '\x30', '\x31', '\x32', '\x33', '\x34', '\x35', '\x36', '\x37', '\x38', '\x39']

/-- `HEX = NUM + "abcdef"` from the source. -/
def HEX : List Char := NUM ++ [
  '\x61', '\x62', '\x63', '\x64', '\x65', '\x66']

/-- `ALPHANUM = HEX + "ghi...XYZ"` from the source. -/
def ALPHANUM : List Char := HEX ++ [
  '\x67', '\x68', '\x69', '\x6a', '\x6b', '\x6c', '\x6d', '\x6e', '\x6f', '\x70', '\x71', '\x72',
  '\x73', '\x74', '\x75', '\x76', '\x77', '\x78', '\x79', '\x7a', '\x41', '\x42', '\x43', '\x44',
  '\x45', '\x46', '\x47', '\x48', '\x49', '\x4a', '\x4b', '\x4c', '\x4d', '\x4e', '\x4f', '\x50',
  '\x51', '\x52', '\x53', '\x54', '\x55', '\x56', '\x57', '\x58', '\x59', '\x5a']

/-- `ASCII_NOSPACE = ALPHANUM + punctuation` from the source. -/
def ASCII_NOSPACE : List Char := ALPHANUM ++ [
  '\x21', '\x22', '\x23', '\x24', '\x25', '\x26', '\x27', '\x28', '\x29', '\x2a', '\x2b', '\x2c',
  '\x2d', '\x2e', '\x2f', '\x3a', '\x3b', '\x3c', '\x3d', '\x3e', '\x3f', '\x40', '\x5b', '\x5c',
  '\x5d', '\x5e', '\x5f', '\x60', '\x7b', '\x7c', '\x7d', '\x7e']

/-- `ASCII = SPACE + ASCII_NOSPACE` from the source. -/
def ASCII : List Char := SPACE ++ ASCII_NOSPACE

/-- `ASCIIEXT_NOSPACE = ASCII_NOSPACE + extended block` from the source (byte-exact,
including the raw control characters present in the file). -/
def ASCIIEXT_NOSPACE : List Char := ASCII_NOSPACE ++ [
  '\x7f', '\u20ac', '\x81', '\u201a', '\u0192', '\u201e', '\u2026', '\u2020', '\u2021', '\u02c6', '\u2030', '\u0160',
  '\u2039', '\u0152', '\x8d', '\u017d', '\x8f', '\x90', '\u2018', '\u2019', '\u201c', '\u201d', '\u2022', '\u2013',
  '\u2014', '\u02dc', '\u2122', '\u0161', '\u203a', '\u0153', '\x9d', '\u017e', '\u0178', '\xa1', '\xa2', '\xa3',
  '\xa4', '\xa5', '\xa6', '\xa7', '\xa8', '\xa9', '\xaa', '\xab', '\xac', '\xae', '\xaf', '\xb0',
  '\xb1', '\xb2', '\xb3', '\xb4', '\xb5', '\xb6', '\xb7', '\xb8', '\xb9', '\xba', '\xbb', '\xbc',
  '\xbd', '\xbe', '\xbf', '\xc0', '\xc1', '\xc2', '\xc3', '\xc4', '\xc5', '\xc6', '\xc7', '\xc8',
  '\xc9', '\xca', '\xcb', '\xcc', '\xcd', '\xce', '\xcf', '\xd0', '\xd1', '\xd2', '\xd3', '\xd4',
  '\xd5', '\xd6', '\xd7', '\xd8', '\xd9', '\xda', '\xdb', '\xdc', '\xdd', '\xde', '\xdf', '\xe0',
  '\xe1', '\xe2', '\xe3', '\xe4', '\xe5', '\xe6', '\xe7', '\xe8', '\xe9', '\xea', '\xeb', '\xec',
  '\xed', '\xee', '\xef', '\xf0', '\xf1', '\xf2', '\xf3', '\xf4', '\xf5', '\xf6', '\xf7', '\xf8',
  '\xf9', '\xfa', '\xfb', '\xfc', '\xfd', '\xfe', '\xff']

/-- `ASCIIEXT = SPACE + ASCIIEXT_NOSPACE` from the source. -/
def ASCIIEXT : List Char := SPACE ++ ASCIIEXT_NOSPACE

/-- `MAIL = "abc...z0-9@.-_+"` from the source. -/
def MAIL : List Char := [
  '\x61', '\x62', '\x63', '\x64', '\x65', '\x66', '\x67', '\x68', '\x69', '\x6a', '\x6b', '\x6c',
  '\x6d', '\x6e', '\x6f', '\x70', '\x71', '\x72', '\x73', '\x74', '\x75', '\x76', '\x77', '\x78',
  '\x79', '\x7a', '\x30', '\x31', '\x32', '\x33', '\x34', '\x35', '\x36', '\x37', '\x38', '\x39',
  '\x40', '\x2e', '\x2d', '\x5f', '\x2b']

/-- The `WhyCry.DIZ` dictionary of registered alphabets, as an association
list in the source's order. -/
def DIZ : List (String × List Char) := [
  ("num", NUM), ("hex", HEX), ("alphanum", ALPHANUM),
  ("ascii_nospace", ASCII_NOSPACE), ("ascii", ASCII),
  ("asciiext_nospace", ASCIIEXT_NOSPACE), ("asciiext", ASCIIEXT),
  ("mail", MAIL)]

/-- `WhyCry.DIZ[name]`: `none` models the `KeyError`. -/
def dizGet (name : String) : List (String × List Char) → Option (List Char)
  | [] => none
  | (n, d) :: rest => if n = name then some d else dizGet name rest

/-- The state of a `WhyCry` instance: the configured dictionary, the
secret-key indices, the last stored signature, and the working buffer
`self.text` (empty right after construction, before any operation touches
it). -/
structure WhyCry where
  dictionary : List Char
  secretkey : List Int
  signature : Option String
  text : List Int
deriving DecidableEq

/-- `WhyCry.__init__(dictionary, secretkey)`. -/
def construct (name : String) (key : List Char) : Except PyErr WhyCry :=
  match dizGet name DIZ with
  | none => .error .keyError
  | some diz =>
    match buildInput diz key with
    | none => .error .valueError
    | some ks => .ok ⟨diz, ks, none, []⟩

/-- `WhyCry.encode(text, mode, create_signature)`.  `sgn` stands for the
sha512 hex digest `_sign`; the hash itself is external library code, so it
enters the model as a parameter.  Returns the Python result (or exception)
together with the instance state after the call, with the mutations that
happened before an exception kept, as in Python. -/
def encodeOp (sgn : List Char → String) (st : WhyCry) (text : List Char)
    (mode : Bool) (csig : Bool) : Except PyErr (List Char) × WhyCry :=
  match buildInput st.dictionary text with
  | none => (.error .valueError, st)
  | some t =>
    if st.secretkey.length = 0 then (.error .zeroDivisionError, { st with text := t })
    else
      let st1 : WhyCry := { st with text := translateOp st.dictionary.length st.secretkey mode t }
      let st2 : WhyCry := if csig then { st1 with signature := some (sgn text) } else st1
      match output st2.dictionary st2.text with
      | none => (.error .indexError, st2)
      | some out => (.ok out, st2)

/-- `WhyCry.decode(text)`, which is `encode(text, mode=0)`. -/
def decodeOp (sgn : List Char → String) (st : WhyCry) (text : List Char) :
    Except PyErr (List Char) × WhyCry :=
  encodeOp sgn st text false false

/-- `WhyCry.wencode(text, lenght, create_signature)`; `cside` and `rs` are the
outcomes of the random draws (see `wideF`).  The leading `assert` is checked
before anything is mutated. -/
def wencodeOp (sgn : List Char → String) (st : WhyCry) (text : List Char)
    (lenght : Nat) (csig : Bool) (cside : Nat) (rs : List Int) :
    Except PyErr (List Char) × WhyCry :=
  if lenght ≤ text.length + 2 then (.error .assertionError, st)
  else
    match buildInput st.dictionary text with
    | none => (.error .valueError, st)
    | some t =>
      match wideF lenght cside rs t with
      | .error e => (.error e, { st with text := t })
      | .ok w =>
        if st.secretkey.length = 0 then (.error .zeroDivisionError, { st with text := w })
        else
          let st1 : WhyCry := { st with text := translateOp st.dictionary.length st.secretkey true w }
          let st2 : WhyCry := if csig then { st1 with signature := some (sgn text) } else st1
          match output st2.dictionary st2.text with
          | none => (.error .indexError, st2)
          | some out => (.ok out, st2)

/-- `WhyCry.wdecode(text)`: reverse transform, then unpad, then render. -/
def wdecodeOp (st : WhyCry) (text : List Char) :
    Except PyErr (List Char) × WhyCry :=
  match buildInput st.dictionary text with
  | none => (.error .valueError, st)
  | some t =>
    if st.secretkey.length = 0 then (.error .zeroDivisionError, { st with text := t })
    else
      let st1 : WhyCry :=
        { st with text := unwide (translateOp st.dictionary.length st.secretkey false t) }
      match output st1.dictionary st1.text with
      | none => (.error .indexError, st1)
      | some out => (.ok out, st1)

/-- `WhyCry.verify(signature)`: compare against the digest of the currently
rendered output; mutates nothing. -/
def verifyOp (sgn : List Char → String) (st : WhyCry) (sig : String) :
    Except PyErr Bool × WhyCry :=
  match output st.dictionary st.text with
  | none => (.error .indexError, st)
  | some out => (.ok (sig = sgn out), st)

/-- `distRun last ds`: the run `ds`, appended after a buffer ending in `last`,
has each element different from its immediate predecessor — exactly the
postcondition of the rejection-sampling loop of `_wide(mode=1)`. -/
def distRun : Int → List Int → Prop
  | _, [] => True
  | l, c :: cs => c ≠ l ∧ distRun c cs

instance distRunDecidable : (l : Int) → (ds : List Int) → Decidable (distRun l ds)
  | _, [] => isTrue trivial
  | l, c :: cs =>
    haveI : Decidable (distRun c cs) := distRunDecidable c cs
    inferInstanceAs (Decidable (c ≠ l ∧ distRun c cs))

/-- No two adjacent elements of the list are equal. -/
def pairFree : List Int → Prop
  | a :: b :: l => a ≠ b ∧ pairFree (b :: l)
  | _ => True


/-- Decidable equality for `Except`, for concrete evaluations. -/
instance exceptDecEq {e a : Type} [DecidableEq e] [DecidableEq a] :
    DecidableEq (Except e a) := fun x y =>
  match x, y with
  | .error u, .error v =>
    if h : u = v then isTrue (congrArg Except.error h)
    else isFalse (fun hh => h (by injection hh))
  | .ok u, .ok v =>
    if h : u = v then isTrue (congrArg Except.ok h)
    else isFalse (fun hh => h (by injection hh))
  | .error _, .ok _ => isFalse (fun hh => Except.noConfusion hh)
  | .ok _, .error _ => isFalse (fun hh => Except.noConfusion hh)

/-- The instance `WhyCry("num", "137")` of the spec's worked example:
dictionary `"0123456789"`, secret key indices `[1, 3, 7]`. -/
def numKey137 : WhyCry := ⟨NUM, [1, 3, 7], none, []⟩

/-! ## Lemmas about the index encoder (`strIndex`, `buildInput`, `output`) -/

lemma strIndex_getElem {c : Char} :
    ∀ {diz : List Char} {i : Nat}, strIndex c diz = some i → diz[i]? = some c := by
  intro diz
  induction diz with
  | nil => intro i h; simp [strIndex] at h
  | cons a as ih =>
    intro i h
    rw [strIndex] at h
    by_cases hac : a = c
    · simp only [if_pos hac, Option.some.injEq] at h
      subst h; simp [hac]
    · simp only [if_neg hac, Option.map_eq_some'] at h
      obtain ⟨j, hj, rfl⟩ := h
      simpa using ih hj

lemma strIndex_lt_length {c : Char} {diz : List Char} {i : Nat}
    (h : strIndex c diz = some i) : i < diz.length :=
  (List.getElem?_eq_some_iff.1 (strIndex_getElem h)).1

lemma strIndex_isSome_of_mem {c : Char} :
    ∀ {diz : List Char}, c ∈ diz → (strIndex c diz).isSome := by
  intro diz
  induction diz with
  | nil => intro h; simp at h
  | cons a as ih =>
    intro h
    rw [strIndex]
    by_cases hac : a = c
    · simp [hac]
    · have hmem : c ∈ as := by
        cases h with
        | head => exact absurd rfl hac
        | tail _ h => exact h
      simp [hac, Option.isSome_map, ih hmem]

lemma strIndex_of_nodup :
    ∀ {diz : List Char}, diz.Nodup → ∀ {i : Nat} {c : Char},
      diz[i]? = some c → strIndex c diz = some i := by
  intro diz
  induction diz with
  | nil => intro _ i c h; simp at h
  | cons a as ih =>
    intro hn i c h
    cases i with
    | zero =>
      simp at h
      subst h
      simp [strIndex]
    | succ j =>
      simp at h
      have hmem : c ∈ as := List.getElem?_mem h
      have hac : a ≠ c := by
        intro he
        subst he
        exact (List.nodup_cons.mp hn).1 hmem
      rw [strIndex]
      simp [hac, ih (List.nodup_cons.mp hn).2 h]

lemma buildInput_isSome_of_mem :
    ∀ {cs : List Char} {diz : List Char},
      (∀ c ∈ cs, c ∈ diz) → (buildInput diz cs).isSome := by
  intro cs
  induction cs with
  | nil => intro diz _; simp [buildInput]
  | cons c cs ih =>
    intro diz h
    have h1 : (strIndex c diz).isSome := strIndex_isSome_of_mem (h c (by simp))
    have h2 : (buildInput diz cs).isSome := ih (fun x hx => h x (by simp [hx]))
    obtain ⟨i, hi⟩ := Option.isSome_iff_exists.mp h1
    obtain ⟨t, ht⟩ := Option.isSome_iff_exists.mp h2
    rw [buildInput, hi, ht]
    rfl

lemma buildInput_length :
    ∀ {cs : List Char} {diz : List Char} {t : List Int},
      buildInput diz cs = some t → t.length = cs.length := by
  intro cs
  induction cs with
  | nil => intro diz t h; rw [buildInput] at h; cases h; simp
  | cons c cs ih =>
    intro diz t h
    rw [buildInput] at h
    cases hi : strIndex c diz with
    | none => rw [hi] at h; exact absurd h (by simp)
    | some i =>
      cases hb : buildInput diz cs with
      | none => rw [hi, hb] at h; exact absurd h (by simp)
      | some t0 =>
        rw [hi, hb] at h
        cases h
        simp [ih hb]

lemma buildInput_bounds :
    ∀ {cs : List Char} {diz : List Char} {t : List Int},
      buildInput diz cs = some t → ∀ x ∈ t, 0 ≤ x ∧ x < (diz.length : Int) := by
  intro cs
  induction cs with
  | nil => intro diz t h; rw [buildInput] at h; cases h; simp
  | cons c cs ih =>
    intro diz t h
    rw [buildInput] at h
    cases hi : strIndex c diz with
    | none => rw [hi] at h; exact absurd h (by simp)
    | some i =>
      cases hb : buildInput diz cs with
      | none => rw [hi, hb] at h; exact absurd h (by simp)
      | some t0 =>
        rw [hi, hb] at h
        cases h
        intro x hx
        cases hx with
        | head =>
          have := strIndex_lt_length hi
          constructor
          · exact Int.ofNat_nonneg i
          · exact_mod_cast this
        | tail _ hx => exact ih hb x hx

lemma pyGetChar_of_bounds {diz : List Char} {x : Int}
    (h0 : 0 ≤ x) : pyGetChar diz x = diz[x.toNat]? := by
  simp [pyGetChar, Int.not_lt.mpr h0, h0]

lemma output_buildInput :
    ∀ {cs : List Char} {diz : List Char} {t : List Int},
      buildInput diz cs = some t → output diz t = some cs := by
  intro cs
  induction cs with
  | nil => intro diz t h; rw [buildInput] at h; cases h; rw [output]
  | cons c cs ih =>
    intro diz t h
    rw [buildInput] at h
    cases hi : strIndex c diz with
    | none => rw [hi] at h; exact absurd h (by simp)
    | some i =>
      cases hb : buildInput diz cs with
      | none => rw [hi, hb] at h; exact absurd h (by simp)
      | some t0 =>
        rw [hi, hb] at h
        cases h
        have hget : pyGetChar diz (i : Int) = some c := by
          rw [pyGetChar_of_bounds (Int.ofNat_nonneg i)]
          simpa using strIndex_getElem hi
        rw [output, hget, ih hb]

lemma output_isSome_of_bounds :
    ∀ {t : List Int} {diz : List Char},
      (∀ x ∈ t, 0 ≤ x ∧ x < (diz.length : Int)) → (output diz t).isSome := by
  intro t
  induction t with
  | nil => intro diz _; simp [output]
  | cons x t ih =>
    intro diz h
    obtain ⟨h0, h1⟩ := h x (by simp)
    have hx : x.toNat < diz.length := by omega
    have hg : pyGetChar diz x = some diz[x.toNat] := by
      rw [pyGetChar_of_bounds h0]
      simp [hx]
    obtain ⟨cs, hcs⟩ := Option.isSome_iff_exists.mp (ih (fun y hy => h y (by simp [hy])))
    rw [output, hg, hcs]
    rfl

lemma output_length :
    ∀ {t : List Int} {diz : List Char} {cs : List Char},
      output diz t = some cs → cs.length = t.length := by
  intro t
  induction t with
  | nil => intro diz cs h; rw [output] at h; cases h; simp
  | cons x t ih =>
    intro diz cs h
    rw [output] at h
    cases hg : pyGetChar diz x with
    | none => rw [hg] at h; exact absurd h (by simp)
    | some c =>
      cases ho : output diz t with
      | none => rw [hg, ho] at h; exact absurd h (by simp)
      | some cs0 =>
        rw [hg, ho] at h
        cases h
        simp [ih ho]

lemma buildInput_output {diz : List Char} (hn : diz.Nodup) :
    ∀ {t : List Int} {cs : List Char},
      (∀ x ∈ t, 0 ≤ x ∧ x < (diz.length : Int)) →
      output diz t = some cs → buildInput diz cs = some t := by
  intro t
  induction t with
  | nil => intro cs _ h; rw [output] at h; cases h; rw [buildInput]
  | cons x t ih =>
    intro cs hb h
    rw [output] at h
    cases hg : pyGetChar diz x with
    | none => rw [hg] at h; exact absurd h (by simp)
    | some c =>
      cases ho : output diz t with
      | none => rw [hg, ho] at h; exact absurd h (by simp)
      | some cs0 =>
        rw [hg, ho] at h
        cases h
        obtain ⟨h0, h1⟩ := hb x (by simp)
        rw [pyGetChar_of_bounds h0] at hg
        have hsi : strIndex c diz = some x.toNat := strIndex_of_nodup hn hg
        rw [buildInput, hsi, ih (fun y hy => hb y (by simp [hy])) ho]
        simp [Int.toNat_of_nonneg h0]

/-! ## Lemmas about the stream transform (`pyRepeat`, `translateOp`) -/

lemma pyRepeat_length (s : List Int) : ∀ r, (pyRepeat s r).length = r * s.length := by
  intro r
  induction r with
  | zero => simp [pyRepeat]
  | succ r ih => simp [pyRepeat, ih, Nat.succ_mul, Nat.add_comm]

lemma pyRepeat_mem (s : List Int) : ∀ {r : Nat} {x : Int}, x ∈ pyRepeat s r → x ∈ s := by
  intro r
  induction r with
  | zero => intro x h; simp [pyRepeat] at h
  | succ r ih =>
    intro x h
    rw [pyRepeat, List.mem_append] at h
    cases h with
    | inl h => exact h
    | inr h => exact ih h

lemma length_le_repeat (n k : Nat) (hk : 0 < k) : n ≤ (n / k + 1) * k := by
  calc n = k * (n / k) + n % k := (Nat.div_add_mod n k).symm
    _ ≤ k * (n / k) + k := by have := Nat.mod_lt n hk; omega
    _ = (n / k + 1) * k := by ring

lemma pyRepeat_getElem (s : List Int) :
    ∀ (r i : Nat), i < r * s.length → (pyRepeat s r)[i]? = s[i % s.length]? := by
  intro r
  induction r with
  | zero => intro i h; omega
  | succ r ih =>
    intro i h
    rw [pyRepeat]
    by_cases hi : i < s.length
    · rw [List.getElem?_append_left hi, Nat.mod_eq_of_lt hi]
    · push_neg at hi
      rw [List.getElem?_append_right hi]
      have hlen : 0 < s.length := by
        rcases Nat.eq_zero_or_pos s.length with h0 | h0
        · rw [h0, Nat.mul_zero] at h; omega
        · exact h0
      have h' : i - s.length < r * s.length := by
        have hh : (r + 1) * s.length = r * s.length + s.length := by ring
        omega
      rw [ih (i - s.length) h']
      congr 1
      conv_rhs => rw [show i = (i - s.length) + s.length by omega]
      rw [Nat.add_mod_right]

lemma zipWith_getElem? (f : Int → Int → Int) :
    ∀ (l1 l2 : List Int) (i : Nat) (x y : Int),
      l1[i]? = some x → l2[i]? = some y → (List.zipWith f l1 l2)[i]? = some (f x y) := by
  intro l1
  induction l1 with
  | nil => intro l2 i x y h; simp at h
  | cons a l1 ih =>
    intro l2 i x y h1 h2
    cases l2 with
    | nil => simp at h2
    | cons b l2 =>
      cases i with
      | zero =>
        simp at h1 h2
        simp [h1, h2]
      | succ j =>
        simp at h1 h2
        simpa using ih l2 j x y h1 h2

lemma translateOp_length (d : Nat) (s : List Int) (mode : Bool) (t : List Int)
    (hs : s ≠ []) : (translateOp d s mode t).length = t.length := by
  have hlen : 0 < s.length := List.length_pos.mpr hs
  have hks : t.length ≤ (pyRepeat s (t.length / s.length + 1)).length := by
    rw [pyRepeat_length]
    exact length_le_repeat t.length s.length hlen
  unfold translateOp
  cases mode <;> simp <;> omega

lemma translateOp_getElem (d : Nat) (s t : List Int) (i : Nat) (x k : Int)
    (hs : s ≠ []) (ht : t[i]? = some x) (hk : s[i % s.length]? = some k) :
    (translateOp d s true t)[i]? = some (if x + k < (d : Int) then x + k else x + k - d) ∧
    (translateOp d s false t)[i]? = some (if x - k > -1 then x - k else x - k + d) := by
  have hlen : 0 < s.length := List.length_pos.mpr hs
  have hil : i < t.length := (List.getElem?_eq_some_iff.1 ht).1
  have hir : i < (t.length / s.length + 1) * s.length := by
    have := length_le_repeat t.length s.length hlen
    omega
  have hks : (pyRepeat s (t.length / s.length + 1))[i]? = some k := by
    rw [pyRepeat_getElem s _ i (by omega)]
    exact hk
  constructor
  · show ((List.zipWith (· + ·) t _).map _)[i]? = _
    rw [List.getElem?_map, zipWith_getElem? _ t _ i x k ht hks]
    rfl
  · show ((List.zipWith (· - ·) t _).map _)[i]? = _
    rw [List.getElem?_map, zipWith_getElem? _ t _ i x k ht hks]
    rfl

lemma zip_wrap_bounds_fwd (d : Nat) :
    ∀ (t ks : List Int),
      (∀ x ∈ t, 0 ≤ x ∧ x < (d : Int)) → (∀ k ∈ ks, 0 ≤ k ∧ k < (d : Int)) →
      ∀ y ∈ (List.zipWith (· + ·) t ks).map
          (fun x : Int => if x < (d : Int) then x else x - (d : Int)),
        0 ≤ y ∧ y < (d : Int) := by
  intro t
  induction t with
  | nil => intro ks _ _ y hy; simp at hy
  | cons a t ih =>
    intro ks hT hK y hy
    cases ks with
    | nil => simp at hy
    | cons k ks =>
      simp only [List.zipWith_cons_cons, List.map_cons, List.mem_cons] at hy
      cases hy with
      | inl hy =>
        obtain ⟨ha0, ha1⟩ := hT a (by simp)
        obtain ⟨hk0, hk1⟩ := hK k (by simp)
        subst hy
        constructor <;> (split <;> omega)
      | inr hy =>
        exact ih ks (fun x hx => hT x (by simp [hx])) (fun x hx => hK x (by simp [hx])) y hy

lemma zip_wrap_bounds_rev (d : Nat) :
    ∀ (t ks : List Int),
      (∀ x ∈ t, 0 ≤ x ∧ x < (d : Int)) → (∀ k ∈ ks, 0 ≤ k ∧ k < (d : Int)) →
      ∀ y ∈ (List.zipWith (· - ·) t ks).map
          (fun x : Int => if x > -1 then x else x + (d : Int)),
        0 ≤ y ∧ y < (d : Int) := by
  intro t
  induction t with
  | nil => intro ks _ _ y hy; simp at hy
  | cons a t ih =>
    intro ks hT hK y hy
    cases ks with
    | nil => simp at hy
    | cons k ks =>
      simp only [List.zipWith_cons_cons, List.map_cons, List.mem_cons] at hy
      cases hy with
      | inl hy =>
        obtain ⟨ha0, ha1⟩ := hT a (by simp)
        obtain ⟨hk0, hk1⟩ := hK k (by simp)
        subst hy
        constructor <;> (split <;> omega)
      | inr hy =>
        exact ih ks (fun x hx => hT x (by simp [hx])) (fun x hx => hK x (by simp [hx])) y hy

lemma translateOp_bounds (d : Nat) (s : List Int) (mode : Bool) (t : List Int)
    (hT : ∀ x ∈ t, 0 ≤ x ∧ x < (d : Int)) (hK : ∀ k ∈ s, 0 ≤ k ∧ k < (d : Int)) :
    ∀ y ∈ translateOp d s mode t, 0 ≤ y ∧ y < (d : Int) := by
  have hK' : ∀ k ∈ pyRepeat s (t.length / s.length + 1), 0 ≤ k ∧ k < (d : Int) :=
    fun k hk => hK k (pyRepeat_mem s hk)
  unfold translateOp
  cases mode
  · simpa using zip_wrap_bounds_rev d t _ hT hK'
  · simpa using zip_wrap_bounds_fwd d t _ hT hK'

lemma zip_wrap_inverse (d : Nat) :
    ∀ (t ks : List Int), t.length ≤ ks.length →
      (∀ x ∈ t, 0 ≤ x ∧ x < (d : Int)) → (∀ k ∈ ks, 0 ≤ k ∧ k < (d : Int)) →
      (List.zipWith (· - ·)
          ((List.zipWith (· + ·) t ks).map
            (fun x : Int => if x < (d : Int) then x else x - (d : Int)))
          ks).map (fun x : Int => if x > -1 then x else x + (d : Int)) = t := by
  intro t
  induction t with
  | nil => intro ks _ _ _; simp
  | cons a t ih =>
    intro ks hlen hT hK
    cases ks with
    | nil => simp at hlen
    | cons k ks =>
      obtain ⟨ha0, ha1⟩ := hT a (by simp)
      obtain ⟨hk0, hk1⟩ := hK k (by simp)
      simp only [List.zipWith_cons_cons, List.map_cons, List.length_cons] at *
      congr 1
      · split <;> (split <;> omega)
      · exact ih ks (by omega) (fun x hx => hT x (by simp [hx]))
          (fun x hx => hK x (by simp [hx]))

lemma translateOp_inverse (d : Nat) (s t : List Int) (hs : s ≠ [])
    (hT : ∀ x ∈ t, 0 ≤ x ∧ x < (d : Int)) (hK : ∀ k ∈ s, 0 ≤ k ∧ k < (d : Int)) :
    translateOp d s false (translateOp d s true t) = t := by
  have hlen : 0 < s.length := List.length_pos.mpr hs
  have hrep : t.length ≤ (pyRepeat s (t.length / s.length + 1)).length := by
    rw [pyRepeat_length]
    exact length_le_repeat t.length s.length hlen
  have hK' : ∀ k ∈ pyRepeat s (t.length / s.length + 1), 0 ≤ k ∧ k < (d : Int) :=
    fun k hk => hK k (pyRepeat_mem s hk)
  have hsame : (translateOp d s true t).length = t.length := translateOp_length d s true t hs
  conv_lhs => rw [translateOp]
  rw [if_neg (by simp), hsame]
  conv_lhs => rw [translateOp]
  rw [if_pos rfl]
  exact zip_wrap_inverse d t _ hrep hT hK'

/-! ## Lemmas about the padding engine (`wideF`, `unwide`) -/

lemma pairFree_of_distRun : ∀ {a : Int} {ds : List Int}, distRun a ds → pairFree (a :: ds) := by
  intro a ds
  induction ds generalizing a with
  | nil => intro _; trivial
  | cons c cs ih =>
    intro h
    obtain ⟨h1, h2⟩ := h
    exact ⟨fun he => h1 he.symm, ih h2⟩

lemma pairFree_iff_chain : ∀ {l : List Int}, pairFree l ↔ List.Chain' (· ≠ ·) l := by
  intro l
  match l with
  | [] => simp [pairFree]
  | [a] => simp [pairFree]
  | a :: b :: l =>
    rw [pairFree, List.chain'_cons]
    exact and_congr Iff.rfl pairFree_iff_chain

lemma pairFree_reverse {l : List Int} (h : pairFree l) : pairFree l.reverse := by
  rw [pairFree_iff_chain] at h ⊢
  rw [List.chain'_reverse]
  exact List.Chain'.imp (fun a b hab => fun he => hab he.symm) h

lemma rejectDraw_some {last : Int} :
    ∀ {rs : List Int} {c : Int} {rest : List Int},
      rejectDraw last rs = some (c, rest) → c ≠ last ∧ c ∈ rs ∧ rest ⊆ rs := by
  intro rs
  induction rs with
  | nil => intro c rest h; simp [rejectDraw] at h
  | cons p ps ih =>
    intro c rest h
    rw [rejectDraw] at h
    by_cases hp : p = last
    · rw [if_pos hp] at h
      obtain ⟨h1, h2, h3⟩ := ih h
      exact ⟨h1, by simp [h2], fun x hx => by simp [h3 hx]⟩
    · rw [if_neg hp] at h
      cases h
      exact ⟨hp, by simp, fun x hx => by simp [hx]⟩

lemma appendRun_some :
    ∀ {n : Nat} {t rs t' rs' : List Int}, t ≠ [] →
      appendRun t n rs = some (t', rs') →
      ∃ ds, t' = t ++ ds ∧ ds.length = n ∧ distRun (t.getLastD 0) ds ∧
        (∀ x ∈ ds, x ∈ rs) ∧ rs' ⊆ rs := by
  intro n
  induction n with
  | zero =>
    intro t rs t' rs' _ h
    rw [appendRun] at h
    cases h
    exact ⟨[], by simp, rfl, trivial, by simp, fun x hx => hx⟩
  | succ n ih =>
    intro t rs t' rs' htne h
    rw [appendRun] at h
    split at h
    · exact absurd h (by simp)
    · rename_i last hlast
      split at h
      · exact absurd h (by simp)
      · rename_i c rest hd
        obtain ⟨hc1, hc2, hc3⟩ := rejectDraw_some hd
        obtain ⟨ds, hds1, hds2, hds3, hds4, hds5⟩ := ih (by simp) h
        have hlastD : t.getLastD 0 = last := by
          rw [List.getLastD_eq_getLast?, hlast]
          rfl
        refine ⟨c :: ds, ?_, by simp [hds2], ?_, ?_, fun x hx => hc3 (hds5 hx)⟩
        · rw [hds1, List.append_cons, List.append_assoc]
          simp
        · rw [hlastD]
          refine ⟨hc1, ?_⟩
          have hgl : (t ++ [c]).getLastD 0 = c := List.getLastD_concat 0 c t
          rwa [hgl] at hds3
        · intro x hx
          cases hx with
          | head => exact hc2
          | tail _ hx => exact hc3 (hds4 x hx)

lemma wideF_ok {lenght cside : Nat} {rs : List Int} {t w : List Int}
    (h : wideF lenght cside rs t = .ok w) :
    ∃ t0 tl ds1 ds2,
      t.head? = some t0 ∧ t.getLast? = some tl ∧
      w = ds2.reverse ++ (t0 :: (t ++ [tl])) ++ ds1 ∧
      ds1.length = cside ∧ ds2.length = (lenght - (t.length + 2)) - cside ∧
      distRun tl ds1 ∧ distRun t0 ds2 ∧
      (∀ x ∈ ds1, x ∈ rs) ∧ (∀ x ∈ ds2, x ∈ rs) := by
  rw [wideF.eq_def] at h
  split at h
  · exact absurd h (by simp)
  · rename_i t0 trest
    dsimp only at h
    split at h
    · exact absurd h (by simp)
    · rename_i pr2 t2 rs2 happ1
      split at h
      · exact absurd h (by simp)
      · rename_i pr3 t3 rs3 happ2
        have ht3 : t3.reverse = w := by
          cases h
          rfl
        have hne1 : t0 :: ((t0 :: trest) ++ [(t0 :: trest).getLastD 0]) ≠ [] := by simp
        obtain ⟨ds1, h1a, h1b, h1c, h1d, h1e⟩ := appendRun_some hne1 happ1
        have hne2 : t2.reverse ≠ [] := by
          rw [h1a]
          simp
        obtain ⟨ds2, h2a, h2b, h2c, h2d, h2e⟩ := appendRun_some hne2 happ2
        have htl : (t0 :: trest).getLast? = some ((t0 :: trest).getLastD 0) := by
          rw [List.getLastD_eq_getLast?]
          cases hq : (t0 :: trest).getLast? with
          | none => simp at hq
          | some q => rfl
        refine ⟨t0, (t0 :: trest).getLastD 0, ds1, ds2, rfl, htl, ?_, h1b, ?_, ?_, ?_,
          h1d, fun x hx => h1e (h2d x hx)⟩
        · rw [← ht3, h2a, h1a]
          rw [List.reverse_append, List.reverse_reverse]
          simp
        · rw [h2b]
          simp only [List.length_cons, List.length_append, List.length_nil]
        · have : (t0 :: ((t0 :: trest) ++ [(t0 :: trest).getLastD 0])).getLastD 0
              = (t0 :: trest).getLastD 0 := by
            rw [show t0 :: ((t0 :: trest) ++ [(t0 :: trest).getLastD 0])
                = (t0 :: (t0 :: trest)) ++ [(t0 :: trest).getLastD 0] by simp,
              List.getLastD_concat]
          rwa [this] at h1c
        · have : t2.reverse.getLastD 0 = t0 := by
            rw [List.getLastD_eq_getLast?, List.getLast?_reverse, h1a]
            simp
          rwa [this] at h2c

lemma scanPair_skip :
    ∀ (pre : List Int) (a : Int) (zs : List Int), pairFree (pre ++ [a]) →
      scanPair (pre ++ a :: a :: zs) = some (a :: zs) := by
  intro pre
  induction pre with
  | nil => intro a zs _; simp [scanPair]
  | cons p pre ih =>
    intro a zs h
    cases pre with
    | nil =>
      have hpa : p ≠ a := h.1
      show scanPair (p :: a :: a :: zs) = some (a :: zs)
      rw [scanPair, if_neg hpa, scanPair, if_pos rfl]
    | cons q pre' =>
      have hpq : p ≠ q := h.1
      have h' : pairFree ((q :: pre') ++ [a]) := h.2
      show scanPair (p :: ((q :: pre') ++ a :: a :: zs)) = some (a :: zs)
      rw [show (q :: pre') ++ a :: a :: zs = q :: (pre' ++ a :: a :: zs) by simp,
        scanPair, if_neg hpq]
      exact ih a zs h'

lemma scanPair_eq_firstAdj :
    ∀ (t : List Int), scanPair t = (firstAdj t).map (fun x => t.drop (x + 1)) := by
  intro t
  match t with
  | [] => rfl
  | [a] => rfl
  | a :: b :: l =>
    rw [scanPair, firstAdj]
    by_cases hab : a = b
    · simp [hab]
    · rw [if_neg hab, if_neg hab, scanPair_eq_firstAdj (b :: l)]
      cases firstAdj (b :: l) <;> simp

lemma unwide_wide (p : List Int) (p0 pl : Int) (ds1 ds2 : List Int)
    (h0 : p.head? = some p0) (hl : p.getLast? = some pl)
    (h1 : distRun pl ds1) (h2 : distRun p0 ds2) :
    unwide (ds2.reverse ++ (p0 :: (p ++ [pl])) ++ ds1) = p := by
  have hpne : p ≠ [] := by
    intro he
    rw [he] at h0
    simp at h0
  obtain ⟨p', hp'⟩ : ∃ p', p = p0 :: p' := by
    cases p with
    | nil => simp at h0
    | cons a p' =>
      simp at h0
      exact ⟨p', by rw [h0]⟩
  have hfree2 : pairFree (ds2.reverse ++ [p0]) := by
    have := pairFree_reverse (pairFree_of_distRun h2)
    simpa using this
  have hstep1 : scanPair (ds2.reverse ++ (p0 :: (p ++ [pl])) ++ ds1)
      = some (p ++ [pl] ++ ds1) := by
    have hsh : ds2.reverse ++ (p0 :: (p ++ [pl])) ++ ds1
        = ds2.reverse ++ p0 :: p0 :: (p' ++ [pl] ++ ds1) := by
      rw [hp']
      simp
    rw [hsh, scanPair_skip ds2.reverse p0 _ hfree2, hp']
    simp
  have hrev1 : (p ++ [pl] ++ ds1).reverse = ds1.reverse ++ pl :: pl :: p.dropLast.reverse := by
    have hsplit : p = p.dropLast ++ [pl] := by
      have := List.dropLast_append_getLast hpne
      rw [List.getLast?_eq_getLast p hpne] at hl
      simp at hl
      rw [hl] at this
      exact this.symm
    conv_lhs => rw [hsplit]
    simp
  have hfree1 : pairFree (ds1.reverse ++ [pl]) := by
    have := pairFree_reverse (pairFree_of_distRun h1)
    simpa using this
  have hstep2 : scanPair (ds1.reverse ++ pl :: pl :: p.dropLast.reverse)
      = some (pl :: p.dropLast.reverse) := scanPair_skip ds1.reverse pl _ hfree1
  have hrev2 : (pl :: p.dropLast.reverse) = p.reverse := by
    have hsplit : p = p.dropLast ++ [pl] := by
      have := List.dropLast_append_getLast hpne
      rw [List.getLast?_eq_getLast p hpne] at hl
      simp at hl
      rw [hl] at this
      exact this.symm
    conv_rhs => rw [hsplit]
    simp
  rw [unwide, unwidePass, hstep1]
  simp only [Option.map_some']
  rw [unwidePass, hrev1, hstep2]
  simp only [Option.map_some']
  rw [hrev2, List.reverse_reverse]

/-! ## Glue lemmas -/

lemma DIZ_nodup : ∀ p ∈ DIZ, (p.2).Nodup := by
  intro p hp
  fin_cases hp <;> decide

lemma scanPair_subset {t l : List Int} (h : scanPair t = some l) : l ⊆ t := by
  rw [scanPair_eq_firstAdj] at h
  cases hf : firstAdj t with
  | none => rw [hf] at h; simp at h
  | some x =>
    rw [hf] at h
    simp at h
    rw [← h]
    exact List.drop_subset _ _

lemma unwide_subset {t : List Int} : ∀ x ∈ unwide t, x ∈ t := by
  intro x hx
  rw [unwide] at hx
  cases h1 : unwidePass t with
  | none => simp [h1] at hx
  | some t1 =>
    simp only [h1] at hx
    cases h2 : unwidePass t1 with
    | none => simp [h2] at hx
    | some t2 =>
      simp only [h2] at hx
      rw [unwidePass] at h1 h2
      cases hs1 : scanPair t with
      | none => rw [hs1] at h1; simp at h1
      | some l1 =>
        rw [hs1] at h1
        simp at h1
        cases hs2 : scanPair t1 with
        | none => rw [hs2] at h2; simp at h2
        | some l2 =>
          rw [hs2] at h2
          simp at h2
          have hx2 : x ∈ l2 := by
            rw [← h2] at hx
            simpa using hx
          have hx1 : x ∈ t1 := scanPair_subset hs2 hx2
          rw [← h1] at hx1
          simp at hx1
          exact scanPair_subset hs1 hx1

lemma drawVal_bounds (m : Nat) (r : ℚ) (hm : 1 ≤ m) (h0 : 0 ≤ r) (h1 : r < 1) :
    0 ≤ drawVal m r ∧ drawVal m r < (m : Int) := by
  unfold drawVal
  constructor
  · exact Int.le_floor.mpr (by positivity)
  · apply Int.floor_lt.mpr
    push_cast
    have hmq : (0 : ℚ) < (m : ℚ) := by exact_mod_cast (by omega : 0 < m)
    calc r * (m : ℚ) < 1 * (m : ℚ) := mul_lt_mul_of_pos_right h1 hmq
      _ = (m : ℚ) := one_mul _

lemma drawVal_surj (m : Nat) (v : Int) (h0 : 0 ≤ v) (h1 : v < (m : Int)) :
    ∃ r : ℚ, 0 ≤ r ∧ r < 1 ∧ drawVal m r = v := by
  have hm : 0 < m := by omega
  have hmq : (0 : ℚ) < (m : ℚ) := by exact_mod_cast hm
  refine ⟨(v : ℚ) / (m : ℚ), ?_, ?_, ?_⟩
  · apply div_nonneg
    · exact_mod_cast h0
    · exact hmq.le
  · rw [div_lt_one hmq]
    exact_mod_cast h1
  · unfold drawVal
    rw [div_mul_cancel₀]
    · exact_mod_cast Int.floor_intCast v
    · exact hmq.ne'

lemma wrap_add_emod (d : Nat) (x k : Int)
    (hx : 0 ≤ x ∧ x < (d : Int)) (hk : 0 ≤ k ∧ k < (d : Int)) :
    (if x + k < (d : Int) then x + k else x + k - d) = (x + k) % (d : Int) := by
  split
  · rw [Int.emod_eq_of_lt (by omega) (by omega)]
  · have h2 : (x + k) % (d : Int) = (x + k - d) % (d : Int) := by
      conv_lhs => rw [show x + k = (x + k - d) + d * 1 by ring]
      rw [Int.add_mul_emod_self_left]
    rw [h2, Int.emod_eq_of_lt (by omega) (by omega)]

lemma wrap_sub_emod (d : Nat) (x k : Int)
    (hx : 0 ≤ x ∧ x < (d : Int)) (hk : 0 ≤ k ∧ k < (d : Int)) :
    (if x - k > -1 then x - k else x - k + d) = (x - k) % (d : Int) := by
  split
  · rw [Int.emod_eq_of_lt (by omega) (by omega)]
  · have h2 : (x - k) % (d : Int) = (x - k + d) % (d : Int) := by
      conv_lhs => rw [show x - k = (x - k + d) + d * (-1) by ring]
      rw [Int.add_mul_emod_self_left]
    rw [h2, Int.emod_eq_of_lt (by omega) (by omega)]

/-! ## The claims -/

/-- C4 counterexample: on the buffer `[0, 0, 1]` the scan finds the first
adjacent-equal pair at index `x = 0`, but the pass does NOT retain the
remainder starting at index `x + 2 = 2`: it keeps the suffix starting at
`x + 1` (the pair's second element), so the pass yields `[1, 0]`, not `[1]`. -/
theorem C4_counterexample :
    firstAdj [(0 : Int), 0, 1] = some 0 ∧
    unwidePass [(0 : Int), 0, 1] = some [1, 0] ∧
    unwidePass [(0 : Int), 0, 1] ≠ some (([(0 : Int), 0, 1].drop (0 + 2)).reverse) := by
  refine ⟨by decide, by decide, by decide⟩

/-- C4 (amended): in each unpadding pass of unwide, when the scan finds the
first index `x` with `buffer[x] == buffer[x+1]`, the pass discards everything
up to and including that pair's FIRST element — the retained remainder starts
at index `x + 1`, keeping the pair's second element — and then reverses the
buffer. -/
theorem C4_unwide_pass (t : List Int) (x : Nat) (h : firstAdj t = some x) :
    unwidePass t = some ((t.drop (x + 1)).reverse) := by
  rw [unwidePass, scanPair_eq_firstAdj, h]
  rfl

theorem C4_unwide_pass_witness :
    firstAdj [(0 : Int), 0, 1] = some 0 ∧
    unwidePass [(0 : Int), 0, 1] = some (([(0 : Int), 0, 1].drop (0 + 1)).reverse) :=
  ⟨by decide, C4_unwide_pass [(0 : Int), 0, 1] 0 (by decide)⟩

/-- C5 counterexample: with alphabet size D = 10, the value 9 lies in [0, D)
and differs from a buffer whose last element is 0, yet no outcome
`r ∈ [0, 1)` of `random()` makes the proposed draw `int(r * max)` equal 9,
because the code uses `max = D - 1 = 9`: the draw range is [0, 9), not [0, 10). -/
theorem C5_counterexample :
    ¬ ∃ r : ℚ, 0 ≤ r ∧ r < 1 ∧ drawVal (maxDraw 10) r = 9 := by
  rintro ⟨r, h0, h1, he⟩
  have h9 : drawVal (maxDraw 10) r < (9 : Int) := by
    have hb := (drawVal_bounds 9 r (by norm_num) h0 h1).2
    simpa [maxDraw] using hb
  omega

/-- C5 (amended): every disturbance proposal is `int(r * (D - 1))` for
`r ∈ [0, 1)`, hence lies in `[0, D - 1)` (never `D - 1` itself), and every
value of `[0, D - 1)` is a possible proposal; the rejection loop accepts
exactly a proposal that differs from the buffer's current last element. -/
theorem C5_draw_range :
    (∀ (d : Nat) (r : ℚ), 2 ≤ d → 0 ≤ r → r < 1 →
      0 ≤ drawVal (maxDraw d) r ∧ drawVal (maxDraw d) r < (d : Int) - 1) ∧
    (∀ (d : Nat) (v : Int), 0 ≤ v → v < (d : Int) - 1 →
      ∃ r : ℚ, 0 ≤ r ∧ r < 1 ∧ drawVal (maxDraw d) r = v) ∧
    (∀ (last : Int) (rs : List Int) (c : Int) (rest : List Int),
      rejectDraw last rs = some (c, rest) → c ≠ last ∧ c ∈ rs) ∧
    (∀ (last c : Int), c ≠ last → rejectDraw last [c] = some (c, [])) := by
  refine ⟨?_, ?_, ?_, ?_⟩
  · intro d r hd h0 h1
    have hm : 1 ≤ maxDraw d := by unfold maxDraw; omega
    have hb := drawVal_bounds (maxDraw d) r hm h0 h1
    have hcast : ((maxDraw d : Nat) : Int) = (d : Int) - 1 := by
      unfold maxDraw; omega
    rw [hcast] at hb
    exact hb
  · intro d v h0 h1
    have hcast : ((maxDraw d : Nat) : Int) = (d : Int) - 1 := by
      unfold maxDraw; omega
    exact drawVal_surj (maxDraw d) v h0 (by rw [hcast]; exact h1)
  · intro last rs c rest h
    obtain ⟨h1, h2, _⟩ := rejectDraw_some h
    exact ⟨h1, h2⟩
  · intro last c hne
    rw [rejectDraw, if_neg hne]

theorem C5_draw_range_witness :
    (0 ≤ drawVal (maxDraw 10) (1 / 2) ∧
      drawVal (maxDraw 10) (1 / 2) < (10 : Int) - 1) ∧
    (∃ r : ℚ, 0 ≤ r ∧ r < 1 ∧ drawVal (maxDraw 10) r = 3) ∧
    ((5 : Int) ≠ 0 ∧ (5 : Int) ∈ [(5 : Int)]) ∧
    rejectDraw 0 [(5 : Int)] = some (5, []) :=
  ⟨C5_draw_range.1 10 (1 / 2) (by norm_num) (by norm_num) (by norm_num),
   C5_draw_range.2.1 10 3 (by norm_num) (by norm_num),
   ⟨by decide, by decide⟩,
   C5_draw_range.2.2.2 0 5 (by decide)⟩

/-- C7: `wencode` with `targetLength ≤ len(text) + 2` fails the leading
`assert` and performs no mutation: the result is the AssertionError and the
instance state — working buffer and signature included — is exactly the state
before the call. -/
theorem C7_wencode_precondition (sgn : List Char → String) (st : WhyCry)
    (text : List Char) (lenght : Nat) (csig : Bool) (cside : Nat) (rs : List Int)
    (h : lenght ≤ text.length + 2) :
    wencodeOp sgn st text lenght csig cside rs = (.error .assertionError, st) := by
  rw [wencodeOp, if_pos h]

theorem C7_wencode_precondition_witness :
    (5 : Nat) ≤ ([' ', ' ', ' '] : List Char).length + 2 ∧
    wencodeOp (fun _ => "") numKey137 [' ', ' ', ' '] 5 false 0 [] =
      (.error .assertionError, numKey137) :=
  ⟨by decide, C7_wencode_precondition (fun _ => "") numKey137 [' ', ' ', ' '] 5 false 0 []
    (by decide)⟩

/-- C10: for every target length L > 2, `wencode("", L)` passes the length
precondition (`L > 0 + 2`) but then fails with an IndexError when the padding
step duplicates the first element of the empty buffer (`t.insert(0, t[0])`),
rather than returning a padded string of length L. -/
theorem C10_wencode_empty (sgn : List Char → String) (st : WhyCry)
    (lenght : Nat) (csig : Bool) (cside : Nat) (rs : List Int) (h : 2 < lenght) :
    (wencodeOp sgn st [] lenght csig cside rs).1 = .error .indexError := by
  rw [wencodeOp, if_neg (by simp only [List.length_nil]; omega)]
  rfl

theorem C10_wencode_empty_witness :
    (2 : Nat) < 4 ∧
    (wencodeOp (fun _ => "") numKey137 [] 4 false 0 []).1 = .error .indexError :=
  ⟨by norm_num, C10_wencode_empty (fun _ => "") numKey137 4 false 0 [] (by norm_num)⟩

/-- C2: over an alphabet of size D with non-empty key indices K (length k),
the stream transform preserves the length and maps position `i` to
`(T[i] + K[i mod k]) mod D` in forward mode and `(T[i] - K[i mod k]) mod D`
in reverse mode; in particular `WhyCry("num", "137")` encodes `"582"` to
`"619"` and decodes `"619"` back to `"582"`. -/
theorem C2_stream_transform :
    (∀ (d : Nat) (s t : List Int) (i : Nat) (x k : Int), s ≠ [] →
      t[i]? = some x → s[i % s.length]? = some k →
      0 ≤ x ∧ x < (d : Int) → 0 ≤ k ∧ k < (d : Int) →
      (translateOp d s true t).length = t.length ∧
      (translateOp d s false t).length = t.length ∧
      (translateOp d s true t)[i]? = some ((x + k) % (d : Int)) ∧
      (translateOp d s false t)[i]? = some ((x - k) % (d : Int))) ∧
    construct "num" ['1', '3', '7'] = .ok numKey137 ∧
    (∀ sgn, (encodeOp sgn numKey137 ['5', '8', '2'] true false).1 = .ok ['6', '1', '9']) ∧
    (∀ sgn, (decodeOp sgn numKey137 ['6', '1', '9']).1 = .ok ['5', '8', '2']) := by
  refine ⟨?_, by decide, fun sgn => rfl, fun sgn => rfl⟩
  intro d s t i x k hs ht hk hxb hkb
  obtain ⟨hfwd, hrev⟩ := translateOp_getElem d s t i x k hs ht hk
  refine ⟨translateOp_length d s true t hs, translateOp_length d s false t hs, ?_, ?_⟩
  · rw [hfwd, wrap_add_emod d x k hxb hkb]
  · rw [hrev, wrap_sub_emod d x k hxb hkb]

theorem C2_stream_transform_witness :
    (translateOp 10 [(1 : Int), 3, 7] true [(5 : Int), 8, 2]).length =
      ([(5 : Int), 8, 2]).length ∧
    (translateOp 10 [(1 : Int), 3, 7] false [(5 : Int), 8, 2]).length =
      ([(5 : Int), 8, 2]).length ∧
    (translateOp 10 [(1 : Int), 3, 7] true [(5 : Int), 8, 2])[1]? =
      some ((8 + 3) % (10 : Int)) ∧
    (translateOp 10 [(1 : Int), 3, 7] false [(5 : Int), 8, 2])[1]? =
      some ((8 - 3) % (10 : Int)) :=
  C2_stream_transform.1 10 [(1 : Int), 3, 7] [(5 : Int), 8, 2] 1 8 3
    (by decide) (by decide) (by decide) (by decide) (by decide)

/-- C9: with a non-empty key whose indices lie in [0, D) and an input index
sequence in [0, D), every index produced by the stream transform (either
mode) again lies in [0, D), so the rendering step's positional lookup into
the alphabet never goes out of range. -/
theorem C9_translate_in_range (diz : List Char) (s t : List Int) (mode : Bool)
    (hs : s ≠ [])
    (hK : ∀ k ∈ s, 0 ≤ k ∧ k < (diz.length : Int))
    (hT : ∀ x ∈ t, 0 ≤ x ∧ x < (diz.length : Int)) :
    (∀ y ∈ translateOp diz.length s mode t, 0 ≤ y ∧ y < (diz.length : Int)) ∧
    (output diz (translateOp diz.length s mode t)).isSome := by
  have hb := translateOp_bounds diz.length s mode t hT hK
  exact ⟨hb, output_isSome_of_bounds hb⟩

theorem C9_translate_in_range_witness :
    (output NUM (translateOp NUM.length [(1 : Int), 3, 7] true [(5 : Int), 8, 2])).isSome :=
  (C9_translate_in_range NUM [(1 : Int), 3, 7] [(5 : Int), 8, 2] true
    (by decide) (by decide) (by decide)).2

/-- C8: the signature field is null right after construction; it is set (to
the digest of the plaintext argument) exactly by an encode or wencode call
with signing requested that runs to completion; decode, wdecode, verify, and
encode/wencode without signing leave the stored signature untouched. -/
theorem C8_signature_frame :
    (∀ (name : String) (key : List Char) (st : WhyCry),
      construct name key = .ok st → st.signature = none) ∧
    (∀ (sgn : List Char → String) (st : WhyCry) (text : List Char) (mode : Bool),
      ((encodeOp sgn st text mode false).2).signature = st.signature) ∧
    (∀ (sgn : List Char → String) (st : WhyCry) (text : List Char),
      ((decodeOp sgn st text).2).signature = st.signature) ∧
    (∀ (sgn : List Char → String) (st : WhyCry) (text : List Char)
      (lenght cside : Nat) (rs : List Int),
      ((wencodeOp sgn st text lenght false cside rs).2).signature = st.signature) ∧
    (∀ (st : WhyCry) (text : List Char),
      ((wdecodeOp st text).2).signature = st.signature) ∧
    (∀ (sgn : List Char → String) (st : WhyCry) (sig : String),
      (verifyOp sgn st sig).2 = st) ∧
    (∀ (sgn : List Char → String) (st : WhyCry) (text : List Char) (mode : Bool)
      (out : List Char) (stf : WhyCry),
      encodeOp sgn st text mode true = (.ok out, stf) →
      stf.signature = some (sgn text)) ∧
    (∀ (sgn : List Char → String) (st : WhyCry) (text : List Char)
      (lenght cside : Nat) (rs : List Int) (out : List Char) (stf : WhyCry),
      wencodeOp sgn st text lenght true cside rs = (.ok out, stf) →
      stf.signature = some (sgn text)) := by
  refine ⟨?_, ?_, ?_, ?_, ?_, ?_, ?_, ?_⟩
  · intro name key st h
    rw [construct] at h
    split at h
    · exact absurd h (by simp)
    · split at h
      · exact absurd h (by simp)
      · cases h
        rfl
  · intro sgn st text mode
    rw [encodeOp]
    split
    · rfl
    · split
      · rfl
      · dsimp only
        split <;> rfl
  · intro sgn st text
    rw [decodeOp, encodeOp]
    split
    · rfl
    · split
      · rfl
      · dsimp only
        split <;> rfl
  · intro sgn st text lenght cside rs
    rw [wencodeOp]
    split
    · rfl
    · split
      · rfl
      · split
        · rfl
        · split
          · rfl
          · dsimp only
            split <;> rfl
  · intro st text
    rw [wdecodeOp]
    split
    · rfl
    · split
      · rfl
      · dsimp only
        split <;> rfl
  · intro sgn st sig
    rw [verifyOp]
    split <;> rfl
  · intro sgn st text mode out stf h
    rw [encodeOp] at h
    split at h
    · exact absurd h (by simp)
    · split at h
      · exact absurd h (by simp)
      · dsimp only at h
        split at h
        · exact absurd h (by simp)
        · cases h
          rfl
  · intro sgn st text lenght cside rs out stf h
    rw [wencodeOp] at h
    split at h
    · exact absurd h (by simp)
    · split at h
      · exact absurd h (by simp)
      · split at h
        · exact absurd h (by simp)
        · split at h
          · exact absurd h (by simp)
          · dsimp only at h
            split at h
            · exact absurd h (by simp)
            · cases h
              rfl

theorem C8_signature_frame_witness :
    numKey137.signature = none ∧
    ((encodeOp (fun _ => "sig") numKey137 ['5'] true false).2).signature = none ∧
    (WhyCry.mk NUM [1, 3, 7] (some "sig") [6]).signature = some "sig" := by
  refine ⟨?_, ?_, ?_⟩
  · exact C8_signature_frame.1 "num" ['1', '3', '7'] numKey137 (by decide)
  · exact C8_signature_frame.2.1 (fun _ => "sig") numKey137 ['5'] true
  · exact C8_signature_frame.2.2.2.2.2.2.1 (fun _ => "sig") numKey137 ['5'] true
      ['6'] (WhyCry.mk NUM [1, 3, 7] (some "sig") [6]) (by decide)

/-- C6 counterexample: `wdecode` does NOT return normally on every input
string: on the instance `WhyCry("num", "1")` the input `"a"` contains a
character outside the alphabet, so `_build_input`'s `str.index` raises a
ValueError before any fail-soft path is reached. -/
theorem C6_counterexample :
    (wdecodeOp (WhyCry.mk NUM [1] none []) ['\x61']).1 = .error .valueError := by
  decide

/-- C6 (amended): for every input string whose characters all lie in the
alphabet, on an instance with a non-empty key, `wdecode` never raises — it
returns a string normally; and whenever a scan pass of `unwide` finds no
adjacent-equal pair in its buffer (the key/alphabet mismatch case), the
returned string is empty. -/
theorem C6_wdecode_failsoft (st : WhyCry) (text : List Char) (t : List Int)
    (hkne : st.secretkey ≠ [])
    (hK : ∀ k ∈ st.secretkey, 0 ≤ k ∧ k < (st.dictionary.length : Int))
    (hb : buildInput st.dictionary text = some t) :
    (∃ out, (wdecodeOp st text).1 = .ok out) ∧
    (firstAdj (translateOp st.dictionary.length st.secretkey false t) = none →
      (wdecodeOp st text).1 = .ok []) ∧
    (∀ t1, unwidePass (translateOp st.dictionary.length st.secretkey false t) = some t1 →
      firstAdj t1 = none → (wdecodeOp st text).1 = .ok []) := by
  have hkl : ¬ st.secretkey.length = 0 := by
    simpa [List.length_eq_zero] using hkne
  have hbt := buildInput_bounds hb
  have htr := translateOp_bounds st.dictionary.length st.secretkey false t hbt hK
  have hu : ∀ x ∈ unwide (translateOp st.dictionary.length st.secretkey false t),
      0 ≤ x ∧ x < (st.dictionary.length : Int) :=
    fun x hx => htr x (unwide_subset x hx)
  obtain ⟨out, hout⟩ := Option.isSome_iff_exists.mp (output_isSome_of_bounds hu)
  have hmain : (wdecodeOp st text).1 = .ok out := by
    rw [wdecodeOp]
    simp only [hb]
    rw [if_neg hkl]
    simp only [hout]
  refine ⟨⟨out, hmain⟩, ?_, ?_⟩
  · intro hfa
    have hempty : unwide (translateOp st.dictionary.length st.secretkey false t) = [] := by
      rw [unwide, unwidePass, scanPair_eq_firstAdj, hfa]
      rfl
    rw [hempty] at hout
    have : out = [] := by
      rw [output] at hout
      cases hout
      rfl
    rw [← this]
    exact hmain
  · intro t1 hp1 hfa1
    have hempty : unwide (translateOp st.dictionary.length st.secretkey false t) = [] := by
      rw [unwide]
      simp only [hp1]
      rw [unwidePass, scanPair_eq_firstAdj, hfa1]
      rfl
    rw [hempty] at hout
    have : out = [] := by
      rw [output] at hout
      cases hout
      rfl
    rw [← this]
    exact hmain

theorem C6_wdecode_failsoft_witness :
    ∃ out, (wdecodeOp (WhyCry.mk NUM [1] none []) ['0', '1']).1 = .ok out :=
  (C6_wdecode_failsoft (WhyCry.mk NUM [1] none []) ['0', '1'] [0, 1]
    (by decide) (by decide) (by decide)).1

lemma encodeOp_eq (sgn : List Char → String) (st : WhyCry) (text : List Char)
    (mode csig : Bool) (t : List Int) (c : List Char)
    (hbt : buildInput st.dictionary text = some t)
    (hkl : ¬ st.secretkey.length = 0)
    (hc : output st.dictionary (translateOp st.dictionary.length st.secretkey mode t) = some c) :
    encodeOp sgn st text mode csig =
      (.ok c, WhyCry.mk st.dictionary st.secretkey
        (if csig then some (sgn text) else st.signature)
        (translateOp st.dictionary.length st.secretkey mode t)) := by
  rw [encodeOp]
  simp only [hbt]
  rw [if_neg hkl]
  cases csig
  · simp only [Bool.false_eq_true, if_false, hc]
  · simp only [if_true, hc]

/-- C3: for every registered alphabet, every non-empty key string over it and
every text over it (the empty text included), `decode(encode(T))` returns `T`
on the same cipher instance. -/
theorem C3_roundtrip (sgn : List Char → String) (name : String) (st : WhyCry)
    (keyStr text : List Char) (csig : Bool)
    (hd : (name, st.dictionary) ∈ DIZ)
    (hk : buildInput st.dictionary keyStr = some st.secretkey)
    (hkne : keyStr ≠ [])
    (ht : ∀ c ∈ text, c ∈ st.dictionary) :
    ∃ c st1, encodeOp sgn st text true csig = (.ok c, st1) ∧
      (decodeOp sgn st1 c).1 = .ok text := by
  have hnd : st.dictionary.Nodup := DIZ_nodup (name, st.dictionary) hd
  have hkLen : st.secretkey.length = keyStr.length := buildInput_length hk
  have hkl : ¬ st.secretkey.length = 0 := by
    intro h0
    rw [h0] at hkLen
    exact hkne (List.length_eq_zero.mp hkLen.symm)
  have hsne : st.secretkey ≠ [] := by
    intro h0
    rw [h0] at hkl
    exact hkl rfl
  have hKb := buildInput_bounds hk
  obtain ⟨t, hbt⟩ := Option.isSome_iff_exists.mp (buildInput_isSome_of_mem ht)
  have htb := buildInput_bounds hbt
  have htr := translateOp_bounds st.dictionary.length st.secretkey true t htb hKb
  obtain ⟨c, hc⟩ := Option.isSome_iff_exists.mp (output_isSome_of_bounds htr)
  refine ⟨c, WhyCry.mk st.dictionary st.secretkey
      (if csig then some (sgn text) else st.signature)
      (translateOp st.dictionary.length st.secretkey true t),
    encodeOp_eq sgn st text true csig t c hbt hkl hc, ?_⟩
  have hbc : buildInput st.dictionary c
      = some (translateOp st.dictionary.length st.secretkey true t) :=
    buildInput_output hnd htr hc
  have hinv : translateOp st.dictionary.length st.secretkey false
      (translateOp st.dictionary.length st.secretkey true t) = t :=
    translateOp_inverse st.dictionary.length st.secretkey t hsne htb hKb
  have hout : output st.dictionary t = some text := output_buildInput hbt
  rw [decodeOp, encodeOp_eq sgn (WhyCry.mk st.dictionary st.secretkey
      (if csig then some (sgn text) else st.signature)
      (translateOp st.dictionary.length st.secretkey true t)) c false false
    (translateOp st.dictionary.length st.secretkey true t) text hbc hkl
    (by rw [hinv]; exact hout)]

theorem C3_roundtrip_witness :
    ∃ c st1, encodeOp (fun _ => "") numKey137 ['5', '8', '2'] true false = (.ok c, st1) ∧
      (decodeOp (fun _ => "") st1 c).1 = .ok ['5', '8', '2'] :=
  C3_roundtrip (fun _ => "") "num" numKey137 ['1', '3', '7'] ['5', '8', '2'] false
    (by decide) (by decide) (by decide) (by decide)

lemma mem_of_head? {t : List Int} {a : Int} (h : t.head? = some a) : a ∈ t := by
  cases t with
  | nil => simp at h
  | cons b l =>
    simp at h
    rw [h]
    simp

lemma mem_of_getLast? {t : List Int} {a : Int} (h : t.getLast? = some a) : a ∈ t := by
  have hne : t ≠ [] := by
    intro he
    rw [he] at h
    simp at h
  rw [List.getLast?_eq_getLast t hne] at h
  simp at h
  rw [← h]
  exact List.getLast_mem hne

lemma wdecodeOp_eq (st : WhyCry) (text : List Char) (t : List Int) (out : List Char)
    (hbt : buildInput st.dictionary text = some t)
    (hkl : ¬ st.secretkey.length = 0)
    (hout : output st.dictionary
      (unwide (translateOp st.dictionary.length st.secretkey false t)) = some out) :
    (wdecodeOp st text).1 = .ok out := by
  rw [wdecodeOp]
  simp only [hbt]
  rw [if_neg hkl]
  simp only [hout]

lemma padded_core (diz : List Char) (key : List Int) (text : List Char)
    (t w : List Int) (c : List Char) (lenght cside : Nat) (rs : List Int)
    (hnd : diz.Nodup)
    (hKb : ∀ k ∈ key, 0 ≤ k ∧ k < (diz.length : Int))
    (hsne : key ≠ [])
    (hbt : buildInput diz text = some t)
    (hw : wideF lenght cside rs t = .ok w)
    (hrs : ∀ x ∈ rs, 0 ≤ x ∧ x < (diz.length : Int) - 1)
    (hL : text.length + 2 < lenght)
    (hcs : cside ≤ lenght - (text.length + 2))
    (hc : output diz (translateOp diz.length key true w) = some c) :
    buildInput diz c = some (translateOp diz.length key true w) ∧
    unwide (translateOp diz.length key false (translateOp diz.length key true w)) = t ∧
    output diz t = some text ∧
    c.length = lenght := by
  have htb := buildInput_bounds hbt
  obtain ⟨t0, tl, ds1, ds2, h0, hl, hww, hl1, hl2, hdr1, hdr2, hm1, hm2⟩ := wideF_ok hw
  have hwb : ∀ x ∈ w, 0 ≤ x ∧ x < (diz.length : Int) := by
    intro x hx
    rw [hww, List.mem_append, List.mem_append] at hx
    rcases hx with (hx | hx) | hx
    · rw [List.mem_reverse] at hx
      have := hrs x (hm2 x hx)
      omega
    · rcases List.mem_cons.mp hx with hx0 | hx1
      · rw [hx0]
        exact htb t0 (mem_of_head? h0)
      · rcases List.mem_append.mp hx1 with hxt | hxl
        · exact htb x hxt
        · simp at hxl
          rw [hxl]
          exact htb tl (mem_of_getLast? hl)
    · have := hrs x (hm1 x hx)
      omega
  have htrb := translateOp_bounds diz.length key true w hwb hKb
  have hbc : buildInput diz c = some (translateOp diz.length key true w) :=
    buildInput_output hnd htrb hc
  have hinv : translateOp diz.length key false (translateOp diz.length key true w) = w :=
    translateOp_inverse diz.length key w hsne hwb hKb
  have hunw : unwide w = t := by
    rw [hww]
    exact unwide_wide t t0 tl ds1 ds2 h0 hl hdr1 hdr2
  have htlen : t.length = text.length := buildInput_length hbt
  have hclen : c.length = lenght := by
    have h1 : c.length = (translateOp diz.length key true w).length := output_length hc
    have h2 : (translateOp diz.length key true w).length = w.length :=
      translateOp_length diz.length key true w hsne
    have h3 : w.length = ds2.length + (t.length + 2) + ds1.length := by
      rw [hww]
      simp [List.length_append, List.length_reverse]
      omega
    rw [h1, h2, h3, hl1, hl2, htlen]
    omega
  exact ⟨hbc, by rw [hinv]; exact hunw, output_buildInput hbt, hclen⟩

/-- C1: for every cipher instance over a registered alphabet with a non-empty
key, every text over the alphabet for which the padded round trip is defined,
every target length L > len(T) + 2, and every outcome of the random draws made
during padding (the split point `cside` and the proposal stream `rs`, whose
values `int(random() * (D-1))` lie in [0, D-1)): if `wencode(T, L)` returns a
ciphertext then `wdecode` of it returns exactly `T`, and the ciphertext's
length is exactly `L`. -/
theorem C1_padded_roundtrip (sgn : List Char → String) (name : String) (st : WhyCry)
    (keyStr text : List Char) (lenght : Nat) (csig : Bool) (cside : Nat)
    (rs : List Int) (c : List Char) (st1 : WhyCry)
    (hd : (name, st.dictionary) ∈ DIZ)
    (hk : buildInput st.dictionary keyStr = some st.secretkey)
    (hsne : st.secretkey ≠ [])
    (hL : text.length + 2 < lenght)
    (hcs : cside ≤ lenght - (text.length + 2))
    (hrs : ∀ x ∈ rs, 0 ≤ x ∧ x < (st.dictionary.length : Int) - 1)
    (hsucc : wencodeOp sgn st text lenght csig cside rs = (.ok c, st1)) :
    (wdecodeOp st1 c).1 = .ok text ∧ c.length = lenght := by
  have hnd : st.dictionary.Nodup := DIZ_nodup (name, st.dictionary) hd
  have hKb := buildInput_bounds hk
  have hkl : ¬ st.secretkey.length = 0 := by
    simpa [List.length_eq_zero] using hsne
  cases csig with
  | false =>
    rw [wencodeOp, if_neg (by omega)] at hsucc
    cases hbt : buildInput st.dictionary text with
    | none =>
      simp only [hbt] at hsucc
      exact absurd hsucc (by simp)
    | some t =>
      simp only [hbt] at hsucc
      cases hw : wideF lenght cside rs t with
      | error e =>
        simp only [hw] at hsucc
        exact absurd hsucc (by simp)
      | ok w =>
        simp only [hw] at hsucc
        rw [if_neg hkl] at hsucc
        simp only [Bool.false_eq_true, if_false] at hsucc
        cases hout : output st.dictionary
            (translateOp st.dictionary.length st.secretkey true w) with
        | none =>
          simp only [hout] at hsucc
          exact absurd hsucc (by simp)
        | some out =>
          simp only [hout] at hsucc
          rw [Prod.mk.injEq] at hsucc
          obtain ⟨hoc, hst⟩ := hsucc
          injection hoc with hoc
          subst hoc
          obtain ⟨hbc, hiu, hot, hclen⟩ := padded_core st.dictionary st.secretkey
            text t w out lenght cside rs hnd hKb hsne hbt hw hrs
            (by omega) hcs hout
          refine ⟨?_, hclen⟩
          rw [← hst]
          exact wdecodeOp_eq _ out _ text hbc hkl (by rw [hiu]; exact hot)
  | true =>
    rw [wencodeOp, if_neg (by omega)] at hsucc
    cases hbt : buildInput st.dictionary text with
    | none =>
      simp only [hbt] at hsucc
      exact absurd hsucc (by simp)
    | some t =>
      simp only [hbt] at hsucc
      cases hw : wideF lenght cside rs t with
      | error e =>
        simp only [hw] at hsucc
        exact absurd hsucc (by simp)
      | ok w =>
        simp only [hw] at hsucc
        rw [if_neg hkl] at hsucc
        simp only [eq_self_iff_true, if_true] at hsucc
        cases hout : output st.dictionary
            (translateOp st.dictionary.length st.secretkey true w) with
        | none =>
          simp only [hout] at hsucc
          exact absurd hsucc (by simp)
        | some out =>
          simp only [hout] at hsucc
          rw [Prod.mk.injEq] at hsucc
          obtain ⟨hoc, hst⟩ := hsucc
          injection hoc with hoc
          subst hoc
          obtain ⟨hbc, hiu, hot, hclen⟩ := padded_core st.dictionary st.secretkey
            text t w out lenght cside rs hnd hKb hsne hbt hw hrs
            (by omega) hcs hout
          refine ⟨?_, hclen⟩
          rw [← hst]
          exact wdecodeOp_eq _ out _ text hbc hkl (by rw [hiu]; exact hot)

theorem C1_padded_roundtrip_witness :
    (wdecodeOp (WhyCry.mk NUM [1] none [5, 6, 6, 9, 9, 4])
        ['5', '6', '6', '9', '9', '4']).1 = .ok ['5', '8'] ∧
    (['5', '6', '6', '9', '9', '4'] : List Char).length = 6 :=
  C1_padded_roundtrip (fun _ => "") "num" (WhyCry.mk NUM [1] none []) ['1'] ['5', '8']
    6 false 1 [3, 4] ['5', '6', '6', '9', '9', '4']
    (WhyCry.mk NUM [1] none [5, 6, 6, 9, 9, 4])
    (by decide) (by decide) (by decide) (by decide) (by decide) (by decide) (by decide)
